import Mathlib

/-!
Verification of the ingestion pipeline of the Aya_Kb repository.

The Python services are shallowly embedded as Lean functions:
* `embedText` / `embedTexts`   — `EmbeddingService.embed_text` / `embed_texts`
  (`src/embedding_service.py`); the sentence-transformers model `encode`
  and the md5 cache-key function are abstract parameters (the spec assumes
  `encode` is deterministic for identical input, which a Lean function is).
* the embedding cache           — a Python `dict` is modelled as an
  insertion-ordered association list, matching dict semantics: updating an
  existing key keeps its position, a fresh key is appended at the end, and
  iteration (`list(d.keys())`) is in insertion order.
-/

/-- The embedding cache: an insertion-ordered association list, the model of
the Python `dict` `self._cache`.  The value type is a parameter because the
claims are independent of the concrete vector representation. -/
abbrev EmbedCache (V : Type) := List (String × V)

/-- Lookup in the cache (first, hence unique, binding of the key). -/
def cacheLookup {V : Type} : EmbedCache V → String → Option V
  | [], _ => none
  | (k', v) :: rest, k => if k' = k then some v else cacheLookup rest k

/-- Python dict assignment `d[k] = v`: an existing key keeps its position,
a fresh key is appended at the end. -/
def cacheInsert {V : Type} : EmbedCache V → String → V → EmbedCache V
  | [], k, v => [(k, v)]
  | (k', v') :: rest, k, v =>
      if k' = k then (k', v) :: rest else (k', v') :: cacheInsert rest k v

/-- `EmbeddingService.embed_text` (src/embedding_service.py lines 69-106).
Returns the embedding and the updated cache.  On a cache miss the vector is
stored and, when the entry count then exceeds 10000, the oldest 5000 entries
in insertion order are deleted (`list(self._cache.keys())[:5000]`). -/
def embedText {V : Type} (enc : String → V) (key : String → String)
    (cacheEnabled : Bool) (text : String) (cache : EmbedCache V) :
    V × EmbedCache V :=
  match (if cacheEnabled then cacheLookup cache (key text) else none) with
  | some v => (v, cache)
  | none =>
      let v := enc text
      if cacheEnabled then
        let c1 := cacheInsert cache (key text) v
        let c2 := if c1.length > 10000 then c1.drop 5000 else c1
        (v, c2)
      else
        (v, cache)

/-- First pass of `embed_texts`: walk the texts with their indices, putting
cache hits into the first list (index paired with the cached vector) and
misses into the second (index paired with the text), both in input order.
This mirrors the loop in lines 133-140 of src/embedding_service.py. -/
def splitPass {V : Type} (look : String → Option V) :
    Nat → List String → List (Nat × V) × List (Nat × String)
  | _, [] => ([], [])
  | i, t :: rest =>
      let p := splitPass look (i + 1) rest
      match look t with
      | some v => ((i, v) :: p.1, p.2)
      | none => (p.1, (i, t) :: p.2)

/-- `EmbeddingService.embed_texts` (src/embedding_service.py lines 108-165).
Returns the embeddings (in input order), the updated cache, and the list of
batched model calls (each call is the list of texts passed to
`model.encode`); the last component makes the number of model invocations
observable.  The code stores each freshly computed vector under the key of
`texts[idx]`, which is exactly the miss text carried in the pair.
No cache eviction is performed here (unlike `embed_text`). -/
def embedTexts {V : Type} (enc : String → V) (key : String → String)
    (cacheEnabled : Bool) (texts : List String) (cache : EmbedCache V) :
    List V × EmbedCache V × List (List String) :=
  if texts.isEmpty then ([], cache, [])
  else
    let look := fun t => if cacheEnabled then cacheLookup cache (key t) else none
    let hm := splitPass look 0 texts
    let missTexts := hm.2.map Prod.snd
    if missTexts.isEmpty then
      let sorted := (hm.1).mergeSort (fun a b => decide (a.1 ≤ b.1))
      (sorted.map Prod.snd, cache, [])
    else
      let newVecs := missTexts.map enc
      let missPairs := (hm.2.map Prod.fst).zip newVecs
      let cache1 := hm.2.foldl
        (fun c p => if cacheEnabled then cacheInsert c (key p.2) (enc p.2) else c)
        cache
      let sorted := (hm.1 ++ missPairs).mergeSort (fun a b => decide (a.1 ≤ b.1))
      (sorted.map Prod.snd, cache1, [missTexts])

/-- The value `embed_text` returns for one text against a fixed lookup
function: the cached vector on a hit, a fresh encoding on a miss. -/
def embedOneVal {V : Type} (enc : String → V) (look : String → Option V)
    (t : String) : V :=
  match look t with
  | some v => v
  | none => enc t

theorem embedText_fst {V : Type} (enc : String → V) (key : String → String)
    (cacheEnabled : Bool) (t : String) (cache : EmbedCache V) :
    (embedText enc key cacheEnabled t cache).1 =
      embedOneVal enc (fun s => if cacheEnabled then cacheLookup cache (key s) else none) t := by
  unfold embedText embedOneVal
  cases h : (if cacheEnabled then cacheLookup cache (key t) else none) with
  | some v => simp [h]
  | none => simp [h]; split <;> rfl

/-- The expected content of the `embeddings` pair list of `embed_texts`:
each text paired with its index (counting from `i`) and its
`embedOneVal` value, in input order. -/
def canonPass {V : Type} (enc : String → V) (look : String → Option V) :
    Nat → List String → List (Nat × V)
  | _, [] => []
  | i, t :: rest => (i, embedOneVal enc look t) :: canonPass enc look (i + 1) rest

theorem canonPass_map_snd {V : Type} (enc : String → V) (look : String → Option V) :
    ∀ (i : Nat) (l : List String),
      (canonPass enc look i l).map Prod.snd = l.map (embedOneVal enc look)
  | _, [] => rfl
  | i, _ :: rest => by
      simp [canonPass, canonPass_map_snd enc look (i + 1) rest]

theorem canonPass_lt_fst {V : Type} (enc : String → V) (look : String → Option V)
    (i : Nat) (l : List String) : ∀ q ∈ canonPass enc look i l, i ≤ q.1 := by
  induction l generalizing i with
  | nil => intro q hq; simp [canonPass] at hq
  | cons t rest ih =>
      intro q hq
      rcases List.mem_cons.mp hq with h | h
      · subst h; exact Nat.le_refl i
      · exact Nat.le_of_succ_le (ih (i + 1) q h)

theorem canonPass_sorted {V : Type} (enc : String → V) (look : String → Option V)
    (i : Nat) (l : List String) :
    List.Pairwise (fun a b : Nat × V => a.1 < b.1) (canonPass enc look i l) := by
  induction l generalizing i with
  | nil => exact List.Pairwise.nil
  | cons t rest ih =>
      refine List.Pairwise.cons ?_ (ih (i + 1))
      intro q hq
      exact Nat.lt_of_succ_le (canonPass_lt_fst enc look (i + 1) rest q hq)

theorem zip_map_enc {V : Type} (enc : String → V) :
    ∀ (l : List (Nat × String)),
      (l.map Prod.fst).zip ((l.map Prod.snd).map enc) =
        l.map (fun p => (p.1, enc p.2))
  | [] => rfl
  | p :: rest => by
      simp only [List.map_cons, List.zip_cons_cons, zip_map_enc enc rest]

theorem splitPass_perm {V : Type} (enc : String → V) (look : String → Option V)
    (i : Nat) (l : List String) :
    ((splitPass look i l).1 ++
      (splitPass look i l).2.map (fun p => (p.1, enc p.2))).Perm
      (canonPass enc look i l) := by
  induction l generalizing i with
  | nil => exact List.Perm.refl _
  | cons t rest ih =>
      cases h : look t with
      | some v =>
          simp only [splitPass, canonPass, h, embedOneVal]
          exact List.Perm.cons _ (ih (i + 1))
      | none =>
          simp only [splitPass, canonPass, h, embedOneVal]
          exact List.Perm.trans List.perm_middle (List.Perm.cons _ (ih (i + 1)))

instance idxLtAntisymm {V : Type} : IsAntisymm (Nat × V) (fun a b => a.1 < b.1) :=
  ⟨fun a b h h2 => absurd (Nat.lt_trans h h2) (Nat.lt_irrefl _)⟩

/-- Sorting the hit/miss pair list of `embed_texts` by index recovers the
texts in input order, each paired with its `embedOneVal` value. -/
theorem mergeSort_pass_eq {V : Type} (enc : String → V) (look : String → Option V)
    (l : List String) :
    (((splitPass look 0 l).1 ++
        (splitPass look 0 l).2.map (fun p => (p.1, enc p.2))).mergeSort
        (fun a b => decide (a.1 ≤ b.1))) = canonPass enc look 0 l := by
  set L := (splitPass look 0 l).1 ++ (splitPass look 0 l).2.map (fun p => (p.1, enc p.2)) with hL
  have hperm : (L.mergeSort (fun a b => decide (a.1 ≤ b.1))).Perm (canonPass enc look 0 l) :=
    (List.mergeSort_perm L _).trans (splitPass_perm enc look 0 l)
  have hsorted_le : List.Pairwise (fun a b : Nat × V => a.1 ≤ b.1)
      (L.mergeSort (fun a b => decide (a.1 ≤ b.1))) := by
    have hs := @List.sorted_mergeSort (Nat × V) (fun a b => decide (a.1 ≤ b.1))
      (fun a b c hab hbc => by
        simp only [decide_eq_true_eq] at *
        exact Nat.le_trans hab hbc)
      (fun a b => by
        simp only [Bool.or_eq_true, decide_eq_true_eq]
        exact Nat.le_total a.1 b.1) L
    exact hs.imp (fun h => of_decide_eq_true h)
  have hnodup : ((L.mergeSort (fun a b => decide (a.1 ≤ b.1))).map Prod.fst).Nodup := by
    have hcanon : ((canonPass enc look 0 l).map Prod.fst).Nodup := by
      have hlt := canonPass_sorted enc look 0 l
      have hne : List.Pairwise (fun a b : Nat × V => a.1 ≠ b.1) (canonPass enc look 0 l) :=
        hlt.imp (fun h => Nat.ne_of_lt h)
      exact List.pairwise_map.mpr hne
    exact ((hperm.map Prod.fst).symm.nodup) hcanon
  have hsorted_lt : List.Sorted (fun a b : Nat × V => a.1 < b.1)
      (L.mergeSort (fun a b => decide (a.1 ≤ b.1))) := by
    have hne : List.Pairwise (fun a b : Nat × V => a.1 ≠ b.1)
        (L.mergeSort (fun a b => decide (a.1 ≤ b.1))) := List.pairwise_map.mp hnodup
    exact (hsorted_le.and hne).imp (fun h => Nat.lt_of_le_of_ne h.1 h.2)
  exact List.eq_of_perm_of_sorted hperm hsorted_lt (canonPass_sorted enc look 0 l)

/-- The embeddings returned by `embed_texts` are exactly the per-text
`embedOneVal` values in input order. -/
theorem embedTexts_fst {V : Type} (enc : String → V) (key : String → String)
    (cacheEnabled : Bool) (texts : List String) (cache : EmbedCache V) :
    (embedTexts enc key cacheEnabled texts cache).1 =
      texts.map (embedOneVal enc
        (fun t => if cacheEnabled then cacheLookup cache (key t) else none)) := by
  by_cases hempty : texts.isEmpty
  · rw [List.isEmpty_iff] at hempty
    subst hempty
    rfl
  · unfold embedTexts
    rw [if_neg (by simpa using hempty)]
    set look := fun t => if cacheEnabled then cacheLookup cache (key t) else none with hlook
    by_cases hmiss : ((splitPass look 0 texts).2.map Prod.snd).isEmpty
    · rw [if_pos hmiss]
      have h2 : (splitPass look 0 texts).2 = [] := by
        rw [List.isEmpty_iff] at hmiss
        exact List.map_eq_nil_iff.mp hmiss
      have hm := mergeSort_pass_eq enc look texts
      rw [h2] at hm
      simp only [List.map_nil, List.append_nil] at hm
      simp only [hm, canonPass_map_snd]
    · rw [if_neg hmiss]
      show ((((splitPass look 0 texts).1 ++
          ((splitPass look 0 texts).2.map Prod.fst).zip
            (((splitPass look 0 texts).2.map Prod.snd).map enc)).mergeSort
          (fun a b => decide (a.1 ≤ b.1))).map Prod.snd) = _
      rw [zip_map_enc enc, mergeSort_pass_eq enc look texts, canonPass_map_snd]

/-- C1: for every list of texts (any ordering, any duplication) and any
cache state, `embed_texts(texts)` returns a sequence whose length equals
`len(texts)` and whose i-th element equals `embed_text(texts[i])` run
against the same cache state; the model `encode` is an arbitrary Lean
function and hence deterministic, as the claim assumes. -/
theorem C1_embed_texts_refines_embed_text {V : Type} (enc : String → V)
    (key : String → String) (cacheEnabled : Bool) (texts : List String)
    (cache : EmbedCache V) :
    (embedTexts enc key cacheEnabled texts cache).1.length = texts.length ∧
    ∀ i : Nat, (embedTexts enc key cacheEnabled texts cache).1[i]? =
      texts[i]?.map (fun t => (embedText enc key cacheEnabled t cache).1) := by
  rw [embedTexts_fst]
  have hfg : embedOneVal enc
      (fun t => if cacheEnabled then cacheLookup cache (key t) else none) =
      fun t => (embedText enc key cacheEnabled t cache).1 :=
    funext fun t => (embedText_fst enc key cacheEnabled t cache).symm
  constructor
  · exact List.length_map _ _
  · intro i
    rw [List.getElem?_map, hfg]

/-- C10: `embed_texts` on the empty list returns the empty list, leaves the
cache untouched and performs no model call at all (the third component lists
the batched `model.encode` invocations). -/
theorem C10_embed_texts_empty {V : Type} (enc : String → V) (key : String → String)
    (cacheEnabled : Bool) (cache : EmbedCache V) :
    embedTexts enc key cacheEnabled [] cache = ([], cache, []) := rfl

theorem cacheLookup_insert_ne {V : Type} (c : EmbedCache V) (k k2 : String) (v : V)
    (h : k ≠ k2) : cacheLookup (cacheInsert c k v) k2 = cacheLookup c k2 := by
  induction c with
  | nil => simp [cacheInsert, cacheLookup, h]
  | cons p rest ih =>
      obtain ⟨k3, v3⟩ := p
      by_cases h3 : k3 = k
      · subst h3
        simp [cacheInsert, cacheLookup, h]
      · simp only [cacheInsert, if_neg h3, cacheLookup]
        by_cases h4 : k3 = k2
        · simp [h4]
        · simp [h4, ih]

theorem cacheInsert_length_of_miss {V : Type} (c : EmbedCache V) (k : String) (v : V)
    (h : cacheLookup c k = none) : (cacheInsert c k v).length = c.length + 1 := by
  induction c with
  | nil => rfl
  | cons p rest ih =>
      obtain ⟨k3, v3⟩ := p
      by_cases h3 : k3 = k
      · simp [cacheLookup, h3] at h
      · simp only [cacheLookup, if_neg h3] at h
        simp [cacheInsert, if_neg h3, ih h]

theorem foldl_cacheInsert_length {V : Type} (enc : String → V) (key : String → String) :
    ∀ (ms : List (Nat × String)) (c : EmbedCache V),
      (ms.map (fun p => key p.2)).Nodup →
      (∀ p ∈ ms, cacheLookup c (key p.2) = none) →
      (ms.foldl (fun acc p => cacheInsert acc (key p.2) (enc p.2)) c).length =
        c.length + ms.length
  | [], c, _, _ => rfl
  | p :: rest, c, hnodup, hnone => by
      have hhead : cacheLookup c (key p.2) = none := hnone p (List.mem_cons_self _ _)
      have hrest : ∀ q ∈ rest, cacheLookup (cacheInsert c (key p.2) (enc p.2)) (key q.2) = none := by
        intro q hq
        have hne : key p.2 ≠ key q.2 := by
          have hnm := (List.nodup_cons.mp hnodup).1
          intro hcontra
          have hmem := List.mem_map_of_mem (fun r : Nat × String => key r.2) hq
          simp only at hmem hnm
          rw [← hcontra] at hmem
          exact hnm hmem
        rw [cacheLookup_insert_ne _ _ _ _ hne]
        exact hnone q (List.mem_cons_of_mem _ hq)
      have ih := foldl_cacheInsert_length enc key rest (cacheInsert c (key p.2) (enc p.2))
        (List.nodup_cons.mp hnodup).2 hrest
      simp only [List.foldl_cons, ih, cacheInsert_length_of_miss c _ _ hhead, List.length_cons]
      omega

theorem splitPass_all_miss {V : Type} (look : String → Option V) :
    ∀ (i : Nat) (l : List String), (∀ t ∈ l, look t = none) →
      (splitPass look i l).1 = [] ∧ (splitPass look i l).2.map Prod.snd = l
  | _, [], _ => ⟨rfl, rfl⟩
  | i, t :: rest, hl => by
      have ih := splitPass_all_miss look (i + 1) rest (fun s hs => hl s (List.mem_cons_of_mem _ hs))
      simp only [splitPass, hl t (List.mem_cons_self _ _)]
      exact ⟨ih.1, by simp [ih.2]⟩

/-- Cache growth of `embed_texts` with the cache enabled, on texts that are
all cache misses with pairwise distinct keys: every miss is stored and
nothing is ever evicted, so the entry count grows by the full number of
texts, past any ceiling. -/
theorem embedTexts_no_eviction {V : Type} (enc : String → V) (key : String → String)
    (texts : List String) (cache : EmbedCache V)
    (hnone : ∀ t ∈ texts, cacheLookup cache (key t) = none)
    (hnodup : (texts.map key).Nodup) :
    (embedTexts enc key true texts cache).2.1.length = cache.length + texts.length := by
  by_cases hempty : texts.isEmpty
  · rw [List.isEmpty_iff] at hempty
    subst hempty
    simp [embedTexts]
  · unfold embedTexts
    rw [if_neg (by simpa using hempty)]
    set look := fun t => if true = true then cacheLookup cache (key t) else none with hlook
    have hmiss := splitPass_all_miss look 0 texts (by
      intro t ht
      simp only [hlook, if_pos rfl]
      exact hnone t ht)
    have hne : ¬ ((splitPass look 0 texts).2.map Prod.snd).isEmpty := by
      rw [hmiss.2]
      simpa using hempty
    rw [if_neg hne]
    show ((splitPass look 0 texts).2.foldl
        (fun c p => cacheInsert c (key p.2) (enc p.2)) cache).length = cache.length + texts.length
    have hkeys : ((splitPass look 0 texts).2.map (fun p => key p.2)).Nodup := by
      have : (splitPass look 0 texts).2.map (fun p => key p.2) =
          ((splitPass look 0 texts).2.map Prod.snd).map key := by
        simp [List.map_map, Function.comp]
      rw [this, hmiss.2]
      exact hnodup
    have hnone2 : ∀ p ∈ (splitPass look 0 texts).2, cacheLookup cache (key p.2) = none := by
      intro p hp
      have : p.2 ∈ (splitPass look 0 texts).2.map Prod.snd := List.mem_map_of_mem Prod.snd hp
      rw [hmiss.2] at this
      exact hnone p.2 this
    rw [foldl_cacheInsert_length enc key _ cache hkeys hnone2]
    have : (splitPass look 0 texts).2.length = texts.length := by
      have := congrArg List.length hmiss.2
      simpa using this
    omega

/-- A list of 10001 pairwise distinct texts. -/
def bigTexts : List String := (List.range 10001).map (fun n => String.mk (List.replicate n 'a'))

theorem bigTexts_nodup : bigTexts.Nodup := by
  refine List.Nodup.map ?_ (List.nodup_range _)
  intro a b h
  have := congrArg (fun s : String => s.data.length) h
  simpa using this

set_option maxRecDepth 4000 in
/-- C3, counterexample: a single `embed_texts` call with 10001 distinct
uncached texts leaves 10001 entries in the cache — the count exceeds the
10000 ceiling and the oldest 5000 entries are NOT removed, because
`embed_texts` (unlike `embed_text`) performs no eviction at all. -/
theorem C3_counterexample :
    ¬ ((embedTexts (fun _ => ([] : List Int)) (fun s => s) true bigTexts []).2.1.length ≤ 10000) := by
  have hlen : (embedTexts (fun _ => ([] : List Int)) (fun s => s) true bigTexts []).2.1.length =
      ([] : EmbedCache (List Int)).length + bigTexts.length := by
    refine embedTexts_no_eviction (fun _ => ([] : List Int)) (fun s => s) bigTexts []
      (fun t _ => rfl) ?_
    have : bigTexts.map (fun s => s) = bigTexts := List.map_id' bigTexts
    rw [this]
    exact bigTexts_nodup
  have hbig : bigTexts.length = 10001 := by
    rw [bigTexts, List.length_map, List.length_range]
  omega

/-- C3, amended: `embed_text` does maintain the bound — starting from a
cache of at most 10000 entries, after `embed_text` the cache again has at
most 10000 entries (when the insert pushes the count to 10001, the oldest
5000 entries are dropped); `embed_texts` performs no eviction
(see the counterexample and `embedTexts_no_eviction`). -/
theorem cacheInsert_length_le {V : Type} (c : EmbedCache V) (k : String) (v : V) :
    (cacheInsert c k v).length ≤ c.length + 1 := by
  induction c with
  | nil => simp [cacheInsert]
  | cons p rest ih =>
      obtain ⟨k3, v3⟩ := p
      by_cases h3 : k3 = k
      · simp [cacheInsert, h3]
      · simp only [cacheInsert, if_neg h3, List.length_cons]
        omega

theorem C3_amended_embed_text_bound {V : Type} (enc : String → V)
    (key : String → String) (cacheEnabled : Bool) (text : String)
    (cache : EmbedCache V) (h : cache.length ≤ 10000) :
    (embedText enc key cacheEnabled text cache).2.length ≤ 10000 := by
  cases cacheEnabled with
  | false => simpa [embedText] using h
  | true =>
      cases hit : cacheLookup cache (key text) with
      | some v => simpa [embedText, hit] using h
      | none =>
          have hsnd : (embedText enc key true text cache).2 =
              if (cacheInsert cache (key text) (enc text)).length > 10000
              then (cacheInsert cache (key text) (enc text)).drop 5000
              else cacheInsert cache (key text) (enc text) := by
            simp [embedText, hit]
          rw [hsnd]
          have hins := cacheInsert_length_le cache (key text) (enc text)
          by_cases hbig : (cacheInsert cache (key text) (enc text)).length > 10000
          · rw [if_pos hbig, List.length_drop]
            omega
          · rw [if_neg hbig]
            omega

/-- Witness for the amended C3 theorem at a concrete input. -/
theorem C3_amended_witness :
    ([] : EmbedCache (List Int)).length ≤ 10000 ∧
    (embedText (fun _ => ([] : List Int)) (fun s => s) true "x" []).2.length ≤ 10000 :=
  ⟨by decide, C3_amended_embed_text_bound _ _ _ _ _ (by decide)⟩

/-!  `EmbeddingService.compute_similarity` (src/embedding_service.py lines
187-213).  The float vectors are modelled over the reals: `np.dot` is the
sum of pairwise products, `np.linalg.norm` the square root of the dot
product of a vector with itself, and the function returns 0 when either
norm is zero, otherwise the dot product divided by the product of norms. -/

/-- np.dot of two equal-length vectors (pointwise products summed). -/
noncomputable def dotList (a b : List ℝ) : ℝ := (List.zipWith (fun x y => x * y) a b).sum

/-- np.linalg.norm: the Euclidean norm. -/
noncomputable def normList (a : List ℝ) : ℝ := Real.sqrt (dotList a a)

open Classical in
/-- `EmbeddingService.compute_similarity`: cosine similarity with the
zero-norm guard of lines 210-211. -/
noncomputable def computeSimilarity (a b : List ℝ) : ℝ :=
  if normList a = 0 ∨ normList b = 0 then 0
  else dotList a b / (normList a * normList b)

theorem dotList_nil (b : List ℝ) : dotList [] b = 0 := by simp [dotList]

theorem dotList_cons (x y : ℝ) (a b : List ℝ) :
    dotList (x :: a) (y :: b) = x * y + dotList a b := by simp [dotList]

theorem dotList_self_nonneg (a : List ℝ) : 0 ≤ dotList a a := by
  induction a with
  | nil => simp [dotList]
  | cons x a ih =>
      rw [dotList_cons]
      nlinarith [sq_nonneg x]

/-- Cauchy-Schwarz for the list dot product. -/
theorem dotList_sq_le (a : List ℝ) : ∀ b : List ℝ,
    (dotList a b) ^ 2 ≤ dotList a a * dotList b b := by
  induction a with
  | nil =>
      intro b
      simp [dotList]
  | cons x a ih =>
      intro b
      cases b with
      | nil =>
          simp [dotList]
      | cons y b =>
          have hA := dotList_self_nonneg a
          have hB := dotList_self_nonneg b
          have hIH := ih b
          simp only [dotList_cons]
          by_cases hA0 : dotList a a = 0
          · have hd2 : (dotList a b) ^ 2 ≤ 0 := by
              rw [hA0] at hIH
              simpa using hIH
            have hd : dotList a b = 0 :=
              pow_eq_zero_iff two_ne_zero |>.mp (le_antisymm hd2 (sq_nonneg _))
            rw [hA0, hd]
            nlinarith [mul_nonneg (mul_self_nonneg x) hB]
          · have hApos : 0 < dotList a a := lt_of_le_of_ne hA (Ne.symm hA0)
            nlinarith [sq_nonneg (x * dotList a b - y * dotList a a),
                       mul_nonneg (sq_nonneg x) (sub_nonneg.mpr hIH),
                       mul_nonneg hA (sub_nonneg.mpr hIH)]

/-- C6, counterexample: `compute_similarity([1], [-1])` is -1, outside the
interval [0, 1] the claim asserts. -/
theorem C6_counterexample :
    ¬ (0 ≤ computeSimilarity [1] [-1] ∧ computeSimilarity [1] [-1] ≤ 1) := by
  have h1 : normList [1] = 1 := by
    simp [normList, dotList]
  have h2 : normList [-1] = 1 := by
    simp [normList, dotList]
  have hsim : computeSimilarity [1] [-1] = -1 := by
    unfold computeSimilarity
    rw [if_neg (by rw [h1, h2]; norm_num)]
    rw [h1, h2]
    simp [dotList]
  rw [hsim]
  norm_num

/-- C6, amended: for every pair of equal-length vectors,
`compute_similarity` returns a value in [-1, 1] (not [0, 1]: components may
be negative, so the cosine may be negative). -/
theorem C6_amended_similarity_bounds (a b : List ℝ) (hlen : a.length = b.length) :
    -1 ≤ computeSimilarity a b ∧ computeSimilarity a b ≤ 1 := by
  unfold computeSimilarity
  split
  · norm_num
  · next hguard =>
      push_neg at hguard
      obtain ⟨ha, hb⟩ := hguard
      have hA : 0 ≤ dotList a a := dotList_self_nonneg a
      have hna : 0 < normList a :=
        lt_of_le_of_ne (Real.sqrt_nonneg _) (Ne.symm ha)
      have hnb : 0 < normList b :=
        lt_of_le_of_ne (Real.sqrt_nonneg _) (Ne.symm hb)
      have hcs : (dotList a b) ^ 2 ≤ dotList a a * dotList b b := dotList_sq_le a b
      have habs : |dotList a b| ≤ normList a * normList b := by
        have h1 : |dotList a b| = Real.sqrt ((dotList a b) ^ 2) :=
          (Real.sqrt_sq_eq_abs _).symm
        rw [h1, normList, normList, ← Real.sqrt_mul hA]
        exact Real.sqrt_le_sqrt hcs
      have hpos : 0 < normList a * normList b := mul_pos hna hnb
      rw [abs_le] at habs
      constructor
      · rw [le_div_iff hpos, neg_one_mul]
        exact habs.1
      · rw [div_le_one hpos]
        exact habs.2

/-- Witness for the amended C6 theorem at a concrete input. -/
theorem C6_amended_witness :
    ([1, 2] : List ℝ).length = ([3, 4] : List ℝ).length ∧
    (-1 ≤ computeSimilarity [1, 2] [3, 4] ∧ computeSimilarity [1, 2] [3, 4] ≤ 1) :=
  ⟨rfl, C6_amended_similarity_bounds [1, 2] [3, 4] rfl⟩

/-- C7: when either vector has zero norm, `compute_similarity` returns 0:
the guard of lines 210-211 fires before the division, so the
division-by-zero branch is unreachable. -/
theorem C7_zero_norm_returns_zero (a b : List ℝ)
    (h : normList a = 0 ∨ normList b = 0) : computeSimilarity a b = 0 := by
  unfold computeSimilarity
  rw [if_pos h]

/-- Witness for C7 at a concrete input: the zero vector has zero norm. -/
theorem C7_witness :
    (normList [0] = 0 ∨ normList [(5 : ℝ)] = 0) ∧ computeSimilarity [0] [5] = 0 := by
  have h : normList [(0 : ℝ)] = 0 := by simp [normList, dotList]
  exact ⟨Or.inl h, C7_zero_norm_returns_zero _ _ (Or.inl h)⟩

/-!  `DocumentProcessor.generate_document_id` (src/document_service.py
lines 78-82). -/

/-- Encoding of a filename to bytes (`filename.encode()`), modelled as the
code points of the characters, which coincide with the UTF-8 bytes on the
ASCII range; only injectivity of the encoding is used below. -/
def strBytes (s : String) : List Nat := s.data.map Char.toNat

/-- The byte string that `generate_document_id` hashes:
`content + filename.encode()` (line 81). -/
def docIdInput (content : List Nat) (filename : String) : List Nat :=
  content ++ strBytes filename

/-- `DocumentProcessor.generate_document_id`: the first 16 hex characters
of a cryptographic hash of `content + filename.encode()`.  The sha256
hexdigest is an abstract parameter; the theorems below hold for every
choice of it, and the counterexample holds for every choice because the
two hash inputs coincide. -/
def generateDocumentId (hexdigest : List Nat → String)
    (content : List Nat) (filename : String) : String :=
  (hexdigest (docIdInput content filename)).take 16

theorem charToNat_injective : Function.Injective Char.toNat := by
  intro a b h
  have hv : a.val = b.val := UInt32.toNat.inj h
  exact Char.eq_of_val_eq hv

theorem strBytes_injective : Function.Injective strBytes := by
  intro s t h
  have hdata : s.data = t.data :=
    List.map_injective_iff.mpr charToNat_injective h
  cases s
  cases t
  exact congrArg String.mk hdata

/-- C9, counterexample: the id does not change whenever content or filename
change — the hash input is the bare concatenation `content ++ filename`,
so the distinct pairs (b"ab", "c") and (b"a", "bc") produce the same hash
input [97, 98, 99] and hence the same id, for every hash function. -/
theorem C9_counterexample :
    generateDocumentId (fun bs => toString bs) [97, 98] "c" =
      generateDocumentId (fun bs => toString bs) [97] "bc" ∧
    ¬ ([97, 98] = ([97] : List Nat) ∧ "c" = "bc") := by
  constructor
  · rfl
  · decide

/-- C9, amended: the id is a deterministic function of the hash input
`content ++ filename.encode()`; with the other component held fixed,
changing the content or the filename changes the hash input (id
distinctness then rests on collision-resistance of the truncated hash),
but distinct (content, filename) pairs whose concatenations coincide
receive the same id. -/
theorem C9_amended_document_id (hexdigest : List Nat → String)
    (c c2 : List Nat) (f f2 : String) :
    generateDocumentId hexdigest c f = (hexdigest (docIdInput c f)).take 16 ∧
    (docIdInput c f = docIdInput c2 f → c = c2) ∧
    (docIdInput c f = docIdInput c f2 → f = f2) := by
  refine ⟨rfl, ?_, ?_⟩
  · intro h
    exact List.append_cancel_right h
  · intro h
    exact strBytes_injective (List.append_cancel_left h)

/-- Witness for the amended C9 theorem at concrete inputs. -/
theorem C9_amended_witness :
    generateDocumentId (fun bs => toString bs) [97] "a.txt" =
      ((fun bs => toString bs) (docIdInput [97] "a.txt")).take 16 ∧
    (docIdInput [97] "a.txt" = docIdInput [98] "a.txt" → [97] = ([98] : List Nat)) ∧
    (docIdInput [97] "a.txt" = docIdInput [97] "b.txt" → "a.txt" = "b.txt") :=
  C9_amended_document_id (fun bs => toString bs) [97] [98] "a.txt" "b.txt"

/-!  `DocumentProcessor._chunk_content` (src/document_service.py lines
181-244).  Text is modelled as `List Char`; `str.strip()` as removing
Python whitespace from both ends, `content.split("\n\n")` as splitting on
two consecutive newline characters (leftmost, non-overlapping), and
`str.split()` (used by `_create_chunk` for the word count) as splitting on
whitespace runs and discarding empties. -/

/-- Python whitespace (`str.strip` / `\s` over ASCII). -/
def pyWs (c : Char) : Bool :=
  c == ' ' || c == '\t' || c == '\n' || c == '\r' || c == '\x0b' || c == '\x0c'

/-- Python `str.strip()`: drop whitespace from the left, then from the
right (implemented by reversing). -/
def pyStrip (s : List Char) : List Char :=
  ((s.dropWhile pyWs).reverse.dropWhile pyWs).reverse

/-- Python `text.split("\n\n")`: leftmost non-overlapping splitting on two
consecutive newlines; an empty input yields one empty piece. -/
def splitParas : List Char → List (List Char)
  | [] => [[]]
  | c :: rest =>
      if c = '\n' ∧ rest.head? = some '\n' then
        [] :: splitParas rest.tail
      else
        match splitParas rest with
        | [] => [[c]]
        | p :: ps => (c :: p) :: ps
termination_by l => l.length
decreasing_by
  all_goals simp [List.length_tail]
  omega

/-- Python `str.split()` (no separator): whitespace-run splitting with
empties discarded; `_create_chunk` uses its length as the word count. -/
def pyWords (l : List Char) : List (List Char) :=
  (List.splitOnP pyWs l).filter (fun w => !w.isEmpty)

/-- One chunk dictionary as built by `DocumentProcessor._create_chunk`
(src/document_service.py lines 246-267); the metadata pass-through is not
modelled (no claim mentions it). -/
structure Chunk where
  chunkId : String
  documentId : String
  content : List Char
  chunkIndex : Nat
  charCount : Nat
  wordCount : Nat
deriving DecidableEq, Repr

def mkChunk (content : List Char) (documentId : String) (chunkIndex : Nat) : Chunk :=
  { chunkId := documentId ++ "_chunk_" ++ toString chunkIndex
    documentId := documentId
    content := content
    chunkIndex := chunkIndex
    charCount := content.length
    wordCount := (pyWords content).length }

/-- The paragraph separator appended after every accumulated paragraph. -/
def paraSep : List Char := ['\n', '\n']

/-- The paragraph loop of `_chunk_content` (lines 210-233), carrying the
emitted chunks, the running buffer `current_chunk` and the next chunk
index. -/
def chunkLoop (documentId : String) (chunkSize chunkOverlap : Nat) :
    List (List Char) → List Chunk → List Char → Nat → List Chunk × List Char × Nat
  | [], chunks, cc, idx => (chunks, cc, idx)
  | para :: rest, chunks, cc, idx =>
      let p := pyStrip para
      if p.isEmpty then
        chunkLoop documentId chunkSize chunkOverlap rest chunks cc idx
      else if cc.length + p.length + 2 > chunkSize then
        if cc.isEmpty then
          chunkLoop documentId chunkSize chunkOverlap rest chunks (cc ++ p ++ paraSep) idx
        else
          let newChunks := chunks ++ [mkChunk (pyStrip cc) documentId idx]
          let overlapStart := cc.length - chunkOverlap
          let seed := pyStrip (cc.drop overlapStart)
          let cc2 := if seed.isEmpty then seed else seed ++ paraSep
          chunkLoop documentId chunkSize chunkOverlap rest newChunks
            (cc2 ++ p ++ paraSep) (idx + 1)
      else
        chunkLoop documentId chunkSize chunkOverlap rest chunks (cc ++ p ++ paraSep) idx

/-- `DocumentProcessor._chunk_content`: strip the input, return no chunks
when empty, otherwise split into paragraphs, run the loop, and emit the
remaining buffer as a final chunk when its stripped form is non-empty. -/
def chunkContent (content : List Char) (documentId : String)
    (chunkSize chunkOverlap : Nat) : List Chunk :=
  let text := pyStrip content
  if text.isEmpty then []
  else
    let r := chunkLoop documentId chunkSize chunkOverlap (splitParas text) [] [] 0
    if (pyStrip r.2.1).isEmpty then r.1
    else r.1 ++ [mkChunk (pyStrip r.2.1) documentId r.2.2]

theorem dropWhile_head_false {p : Char → Bool} {c : Char} {l : List Char}
    (h : p c = false) : List.dropWhile p (c :: l) = c :: l := by
  rw [List.dropWhile_cons, h]
  simp

theorem rstrip_eq_self {l : List Char}
    (hl : ∀ c, l.getLast? = some c → pyWs c = false) :
    (l.reverse.dropWhile pyWs).reverse = l := by
  cases hrev : l.reverse with
  | nil =>
      rw [List.reverse_eq_nil_iff.mp hrev]
      rfl
  | cons d r =>
      have hd : l.getLast? = some d := by
        rw [← List.head?_reverse, hrev]
        rfl
      rw [dropWhile_head_false (hl d hd), ← hrev, List.reverse_reverse]

theorem pyStrip_eq_self {l : List Char}
    (hh : ∀ c, l.head? = some c → pyWs c = false)
    (hl : ∀ c, l.getLast? = some c → pyWs c = false) : pyStrip l = l := by
  cases l with
  | nil => rfl
  | cons a t =>
      have ha : pyWs a = false := hh a rfl
      show ((List.dropWhile pyWs (a :: t)).reverse.dropWhile pyWs).reverse = a :: t
      rw [dropWhile_head_false ha]
      exact rstrip_eq_self hl

theorem dropWhile_ne_nil_of_getLast {l : List Char} {d : Char}
    (hd : l.getLast? = some d) (hdw : pyWs d = false) :
    l.dropWhile pyWs ≠ [] := by
  intro hnil
  have hall := List.dropWhile_eq_nil_iff.mp hnil
  obtain ⟨hne, hde⟩ := List.mem_getLast?_eq_getLast (by rw [hd]; rfl)
  have hmem : d ∈ l := hde ▸ List.getLast_mem hne
  rw [hall d hmem] at hdw
  exact Bool.true_eq_false ▸ (by simp at hdw)

theorem getLast_dropWhile {l : List Char} {d : Char}
    (hd : l.getLast? = some d) (hdw : pyWs d = false) :
    (l.dropWhile pyWs).getLast? = some d := by
  have hne := dropWhile_ne_nil_of_getLast hd hdw
  have h1 : l.getLast? = (l.dropWhile pyWs).getLast? := by
    conv_lhs => rw [← List.takeWhile_append_dropWhile pyWs l]
    exact List.getLast?_append_of_ne_nil _ hne
  rw [← h1, hd]

/-- Stripping a string that is a non-whitespace-ended prefix followed by a
whitespace suffix: the suffix disappears and only the leading whitespace of
the prefix is removed. -/
theorem pyStrip_append_ws {l w : List Char} {d : Char}
    (hd : l.getLast? = some d) (hdw : pyWs d = false)
    (hw : ∀ c ∈ w, pyWs c = true) :
    pyStrip (l ++ w) = l.dropWhile pyWs := by
  have hne := dropWhile_ne_nil_of_getLast hd hdw
  show ((List.dropWhile pyWs (l ++ w)).reverse.dropWhile pyWs).reverse = _
  rw [List.dropWhile_append, if_neg (by simpa [List.isEmpty_iff] using hne)]
  rw [List.reverse_append, List.dropWhile_append]
  rw [if_pos (by
    rw [List.isEmpty_iff, List.dropWhile_eq_nil_iff]
    intro x hx
    exact hw x (List.mem_reverse.mp hx))]
  have hlast := getLast_dropWhile hd hdw
  cases hcons : (l.dropWhile pyWs).reverse with
  | nil => exact absurd (List.reverse_eq_nil_iff.mp hcons) hne
  | cons d2 r2 =>
      have hd2 : d2 = d := by
        have hh := List.head?_reverse (l.dropWhile pyWs)
        rw [hcons, hlast] at hh
        exact Option.some_inj.mp hh
      rw [hd2] at hcons
      rw [hd2, dropWhile_head_false hdw, ← hcons, List.reverse_reverse]

theorem splitParas_ne_nil (l : List Char) : splitParas l ≠ [] := by
  match l with
  | [] => simp [splitParas]
  | c :: rest =>
      rw [splitParas]
      split
      · simp
      · split <;> simp

theorem splitParas_append_no_nl {p : List Char} (hp : ∀ c ∈ p, c ≠ '\n') :
    ∀ l : List Char, splitParas (p ++ l) =
      match splitParas l with
      | [] => [p]
      | q :: qs => (p ++ q) :: qs := by
  induction p with
  | nil =>
      intro l
      cases hsp : splitParas l with
      | nil => exact absurd hsp (splitParas_ne_nil l)
      | cons q qs => simp [hsp]
  | cons c p ih =>
      intro l
      have hc : c ≠ '\n' := hp c (List.mem_cons_self _ _)
      have hrest : ∀ x ∈ p, x ≠ '\n' := fun x hx => hp x (List.mem_cons_of_mem _ hx)
      show splitParas (c :: (p ++ l)) = _
      rw [splitParas]
      rw [if_neg (fun h => hc h.1)]
      rw [ih hrest l]
      cases hsp : splitParas l with
      | nil => exact absurd hsp (splitParas_ne_nil l)
      | cons q qs => simp

theorem splitParas_sep (l : List Char) :
    splitParas ('\n' :: '\n' :: l) = [] :: splitParas l := by
  rw [splitParas]
  rw [if_pos ⟨rfl, rfl⟩]
  rfl

theorem splitParas_no_nl {p : List Char} (hp : ∀ c ∈ p, c ≠ '\n') :
    splitParas p = [p] := by
  have h := splitParas_append_no_nl hp []
  simpa [splitParas] using h

theorem splitParas_two {p1 p2 : List Char}
    (h1 : ∀ c ∈ p1, c ≠ '\n') (h2 : ∀ c ∈ p2, c ≠ '\n') :
    splitParas (p1 ++ paraSep ++ p2) = [p1, p2] := by
  have hsep : p1 ++ paraSep ++ p2 = p1 ++ ('\n' :: '\n' :: p2) := by
    simp [paraSep]
  rw [hsep, splitParas_append_no_nl h1, splitParas_sep, splitParas_no_nl h2]
  simp

theorem dropWhile_eq_self_of_head {l : List Char}
    (hh : ∀ c, l.head? = some c → pyWs c = false) (hne : l ≠ []) :
    l.dropWhile pyWs = l := by
  cases l with
  | nil => exact absurd rfl hne
  | cons a t => exact dropWhile_head_false (hh a rfl)

theorem paraSep_ws : ∀ c ∈ paraSep, pyWs c = true := by decide

/-- C8: an input consisting of a single paragraph longer than `chunk_size`
is never split inside the paragraph: the chunker emits exactly one
(oversized) chunk whose content is the whole paragraph. -/
theorem C8_single_long_paragraph (p : List Char) (docId : String)
    (chunkSize chunkOverlap : Nat)
    (hne : p ≠ [])
    (hnl : ∀ c ∈ p, c ≠ '\n')
    (hh : ∀ c, p.head? = some c → pyWs c = false)
    (hl : ∀ c, p.getLast? = some c → pyWs c = false)
    (hbig : chunkSize < p.length) :
    chunkContent p docId chunkSize chunkOverlap = [mkChunk p docId 0] := by
  have hstrip : pyStrip p = p := pyStrip_eq_self hh hl
  have hd : p.getLast? = some (p.getLast hne) := List.getLast?_eq_getLast_of_ne_nil hne
  have hdw : pyWs (p.getLast hne) = false := hl _ hd
  have hps : pyStrip (p ++ paraSep) = p := by
    rw [pyStrip_append_ws hd hdw paraSep_ws]
    exact dropWhile_eq_self_of_head hh hne
  have hloop : chunkLoop docId chunkSize chunkOverlap [p] [] [] 0 = ([], p ++ paraSep, 0) := by
    rw [chunkLoop, hstrip]
    rw [if_neg (by simpa [List.isEmpty_iff] using hne)]
    rw [if_pos (by simpa using Nat.lt_of_lt_of_le hbig (by omega))]
    rw [if_pos (show ([] : List Char).isEmpty = true from rfl)]
    rw [chunkLoop]
    simp
  unfold chunkContent
  rw [hstrip]
  rw [if_neg (by simpa [List.isEmpty_iff] using hne)]
  rw [splitParas_no_nl hnl, hloop]
  simp only [hps]
  rw [if_neg (by simpa [List.isEmpty_iff] using hne)]
  rfl

/-- Witness for C8 at a concrete input: a 6-character paragraph with
`chunk_size = 3`. -/
theorem C8_witness :
    (('a' :: "bcdef".toList) ≠ [] ∧ 3 < ('a' :: "bcdef".toList).length) ∧
    chunkContent ('a' :: "bcdef".toList) "doc" 3 1 = [mkChunk ('a' :: "bcdef".toList) "doc" 0] :=
  ⟨⟨by decide, by decide⟩,
    C8_single_long_paragraph ('a' :: "bcdef".toList) "doc" 3 1 (by decide) (by decide)
      (by decide) (by decide) (by decide)⟩

theorem length_append_paraSep (l : List Char) : (l ++ paraSep).length = l.length + 2 := by
  simp [paraSep]

/-- C5: with `chunk_size = 50` and `chunk_overlap = 10`, an input of two
40-character paragraphs separated by a blank line yields exactly 2 chunks
(first chunk the first paragraph), and the second chunk begins with the last
at-most-10 characters of the first chunk (here: 8, the 10-character overlap
window minus the two separator characters, further shortened if the window
begins in whitespace). -/
theorem C5_two_paragraph_example (p1 p2 : List Char) (docId : String)
    (h1 : p1.length = 40) (h2 : p2.length = 40)
    (hn1 : ∀ c ∈ p1, c ≠ '\n') (hn2 : ∀ c ∈ p2, c ≠ '\n')
    (hh1 : ∀ c, p1.head? = some c → pyWs c = false)
    (hl1 : ∀ c, p1.getLast? = some c → pyWs c = false)
    (hh2 : ∀ c, p2.head? = some c → pyWs c = false)
    (hl2 : ∀ c, p2.getLast? = some c → pyWs c = false) :
    ∃ s : List Char,
      (chunkContent (p1 ++ paraSep ++ p2) docId 50 10).map Chunk.content =
        [p1, s ++ paraSep ++ p2] ∧
      0 < s.length ∧ s.length ≤ 10 ∧ p1.drop (p1.length - s.length) = s := by
  have hne1 : p1 ≠ [] := by
    intro hcon
    rw [hcon] at h1
    simp at h1
  have hne2 : p2 ≠ [] := by
    intro hcon
    rw [hcon] at h2
    simp at h2
  have hstrip1 : pyStrip p1 = p1 := pyStrip_eq_self hh1 hl1
  have hstrip2 : pyStrip p2 = p2 := pyStrip_eq_self hh2 hl2
  have hd1 : p1.getLast? = some (p1.getLast hne1) := List.getLast?_eq_getLast_of_ne_nil hne1
  have hdw1 : pyWs (p1.getLast hne1) = false := hl1 _ hd1
  have hd2 : p2.getLast? = some (p2.getLast hne2) := List.getLast?_eq_getLast_of_ne_nil hne2
  have hdw2 : pyWs (p2.getLast hne2) = false := hl2 _ hd2
  have hps1 : pyStrip (p1 ++ paraSep) = p1 := by
    rw [pyStrip_append_ws hd1 hdw1 paraSep_ws]
    exact dropWhile_eq_self_of_head hh1 hne1
  -- the tail of p1 inside the overlap window
  have hdropne : p1.drop 32 ≠ [] := by
    intro hcon
    have := congrArg List.length hcon
    simp [h1] at this
  have hglast : (p1.drop 32).getLast? = some (p1.getLast hne1) := by
    rw [← hd1]
    conv_rhs => rw [← List.take_append_drop 32 p1]
    exact (List.getLast?_append_of_ne_nil _ hdropne).symm
  have hsne : (p1.drop 32).dropWhile pyWs ≠ [] :=
    dropWhile_ne_nil_of_getLast hglast hdw1
  have hseed : pyStrip ((p1 ++ paraSep).drop 32) = (p1.drop 32).dropWhile pyWs := by
    rw [List.drop_append_of_le_length (by omega)]
    exact pyStrip_append_ws hglast hdw1 paraSep_ws
  -- strip of the final buffer
  obtain ⟨a, t, hst⟩ : ∃ a t, (p1.drop 32).dropWhile pyWs = a :: t := by
    cases hc : (p1.drop 32).dropWhile pyWs with
    | nil => exact absurd hc hsne
    | cons a t => exact ⟨a, t, rfl⟩
  have haws : pyWs a = false := by
    have hx := List.head?_dropWhile_not pyWs (p1.drop 32)
    rw [hst] at hx
    simpa using hx
  have hfinal : pyStrip ((((p1.drop 32).dropWhile pyWs ++ paraSep) ++ p2) ++ paraSep) =
      ((p1.drop 32).dropWhile pyWs ++ paraSep) ++ p2 := by
    have hlast : (((p1.drop 32).dropWhile pyWs ++ paraSep) ++ p2).getLast? =
        some (p2.getLast hne2) := by
      rw [List.getLast?_append_of_ne_nil _ hne2]
      exact hd2
    rw [pyStrip_append_ws hlast hdw2 paraSep_ws]
    rw [hst]
    show List.dropWhile pyWs (a :: (t ++ paraSep ++ p2)) = _
    rw [dropWhile_head_false haws]
    simp
  -- run the paragraph loop on [p1, p2]
  have hloop : chunkLoop docId 50 10 [p1, p2] [] [] 0 =
      ([mkChunk p1 docId 0],
        (((p1.drop 32).dropWhile pyWs ++ paraSep) ++ p2) ++ paraSep, 1) := by
    rw [chunkLoop, hstrip1]
    rw [if_neg (by simpa [List.isEmpty_iff] using hne1)]
    rw [if_neg (by simp [length_append_paraSep, h1])]
    rw [chunkLoop, hstrip2]
    rw [if_neg (by simpa [List.isEmpty_iff] using hne2)]
    rw [if_pos (by
      simp only [List.nil_append, List.length_append, List.length_cons, List.length_nil,
        paraSep, h1, h2]
      omega)]
    rw [if_neg (by simp [List.isEmpty_iff, paraSep])]
    simp only [List.nil_append]
    have hov2 : (p1 ++ paraSep).length - 10 = 32 := by
      simp [length_append_paraSep, h1, paraSep]
    rw [hov2, hseed]
    rw [if_neg (by simpa [List.isEmpty_iff] using hsne)]
    rw [chunkLoop, hps1]
  -- assemble chunk_content
  obtain ⟨a1, t1, hp1⟩ : ∃ a t, p1 = a :: t := by
    cases p1 with
    | nil => exact absurd rfl hne1
    | cons a t => exact ⟨a, t, rfl⟩
  have htext : pyStrip (p1 ++ paraSep ++ p2) = p1 ++ paraSep ++ p2 := by
    apply pyStrip_eq_self
    · intro c hc
      rw [hp1] at hc
      simp only [List.cons_append, List.head?_cons] at hc
      apply hh1
      rw [hp1, List.head?_cons, hc]
    · intro c hc
      rw [List.getLast?_append_of_ne_nil _ hne2] at hc
      exact hl2 c hc
  have hcc : chunkContent (p1 ++ paraSep ++ p2) docId 50 10 =
      [mkChunk p1 docId 0,
        mkChunk (((p1.drop 32).dropWhile pyWs ++ paraSep) ++ p2) docId 1] := by
    unfold chunkContent
    rw [htext]
    rw [if_neg (by simp [List.isEmpty_iff, hp1])]
    rw [splitParas_two hn1 hn2, hloop]
    simp only
    rw [hfinal]
    rw [if_neg (by simp [List.isEmpty_iff, hst])]
    rfl
  -- the overlap seed is the tail of p1 after position 32 + leading whitespace
  have h4 := List.takeWhile_append_dropWhile pyWs (p1.drop 32)
  have h5 := List.drop_left ((p1.drop 32).takeWhile pyWs) ((p1.drop 32).dropWhile pyWs)
  rw [h4] at h5
  have h6 : p1.drop (32 + ((p1.drop 32).takeWhile pyWs).length) = (p1.drop 32).dropWhile pyWs := by
    rw [← List.drop_drop]
    exact h5
  have hk := congrArg List.length h6
  rw [List.length_drop, h1] at hk
  have hkpos : 0 < ((p1.drop 32).dropWhile pyWs).length := List.length_pos.mpr hsne
  refine ⟨(p1.drop 32).dropWhile pyWs, ?_, hkpos, by omega, ?_⟩
  · rw [hcc]
    simp [mkChunk]
  · rw [h1]
    have heq : 40 - ((p1.drop 32).dropWhile pyWs).length =
        32 + ((p1.drop 32).takeWhile pyWs).length := by omega
    rw [heq]
    exact h6

/-- Witness for C5 at concrete paragraphs (40 repetitions of one letter
each). -/
theorem C5_witness :
    ((List.replicate 40 'a').length = 40 ∧ (List.replicate 40 'b').length = 40) ∧
    ∃ s : List Char,
      (chunkContent (List.replicate 40 'a' ++ paraSep ++ List.replicate 40 'b')
          "doc" 50 10).map Chunk.content =
        [List.replicate 40 'a', s ++ paraSep ++ List.replicate 40 'b'] ∧
      0 < s.length ∧ s.length ≤ 10 ∧
      (List.replicate 40 'a').drop ((List.replicate 40 'a').length - s.length) = s :=
  ⟨⟨by decide, by decide⟩,
    C5_two_paragraph_example (List.replicate 40 'a') (List.replicate 40 'b') "doc"
      (by decide) (by decide) (by decide) (by decide)
      (by decide) (by decide) (by decide) (by decide)⟩

/-!  `PIIProtectionService` (src/pii_service.py).  The regex patterns of
`_patterns` are embedded as token lists over character classes with greedy,
backtracking quantifier semantics matching `re` (all patterns are compiled
with `re.IGNORECASE`, line 290): a quantified class tries the longest
repetition first and backtracks; `finditer` scans left to right yielding
non-overlapping matches.  The optional LangExtract detector is a parameter
(`llmDetections`/`llmCategories`): when it is not configured the code
contributes the empty list, exactly as lines 123-132 do. -/

/-- PII categories (`PIICategory` in src/api_schemas.py). -/
inductive PIICategory where
  | password | apiKey | creditCard | ssn | email | phone | address
deriving DecidableEq, Repr

/-- One detection dictionary as produced by the detectors: category, the
matched text, the half-open span, the confidence and the producing
detector.  The Python `end` key is called `stop` (Lean keyword clash), and
the float confidence (0.8 for regex detections) is stored multiplied by
100 so that the embedding stays within decidable arithmetic. -/
structure Detection where
  category : PIICategory
  text : List Char
  start : Nat
  stop : Nat
  confidencePct : Nat
  source : String
deriving DecidableEq, Repr

/-- One regex token: a character class repeated between `lo` and `hi`
times (`hi = none` meaning unbounded) and optionally capturing (group 1),
or a word boundary. -/
inductive RTok where
  | rep (lo : Nat) (hi : Option Nat) (cap : Bool) (cls : Char → Bool)
  | wb

/-- Python regex word character (`\w` over ASCII). -/
def isWordChar (c : Char) : Bool :=
  ('a' ≤ c && c ≤ 'z') || ('A' ≤ c && c ≤ 'Z') || ('0' ≤ c && c ≤ '9') || c == '_'

def wordAt (cs : List Char) (i : Nat) : Bool :=
  match cs[i]? with
  | some c => isWordChar c
  | none => false

/-- Word boundary (`\b`): exactly one of the neighbouring positions holds a
word character. -/
def atBoundary (cs : List Char) (i : Nat) : Bool :=
  (if i = 0 then false else wordAt cs (i - 1)) != wordAt cs i

/-- Length of the maximal run of class characters starting at `i`. -/
def runLen (cls : Char → Bool) (cs : List Char) (i : Nat) : Nat :=
  ((cs.drop i).takeWhile cls).length

/-- The repetition counts tried for a greedy quantifier: from the largest
feasible down to `lo`. -/
def descRange (lo maxK : Nat) : List Nat :=
  (List.range (maxK + 1 - lo)).map (fun j => maxK - j)

/-- Backtracking matcher for a token list at position `i`: returns the end
position of the match and the span of the capturing group, if any (the
embedded patterns contain at most one group).  Greedy semantics: the
longest repetition whose continuation succeeds wins. -/
def matchToks (cs : List Char) : List RTok → Nat → Option (Nat × Option (Nat × Nat))
  | [], i => some (i, none)
  | RTok.wb :: rest, i =>
      if atBoundary cs i then matchToks cs rest i else none
  | RTok.rep lo hi cap cls :: rest, i =>
      let m := runLen cls cs i
      let maxK := match hi with
        | none => m
        | some h => min m h
      (descRange lo maxK).findSome? (fun k =>
        (matchToks cs rest (i + k)).map (fun r =>
          (r.1, if cap then some (i, i + k) else r.2)))

/-- `re.finditer` scanning: try every position from left to right, emit the
match and continue after it (one position further for an empty match). -/
def findIterAux (cs : List Char) (pat : List RTok) :
    Nat → Nat → List (Nat × Nat × Option (Nat × Nat))
  | 0, _ => []
  | fuel + 1, i =>
      if i > cs.length then []
      else
        match matchToks cs pat i with
        | some (e, g) => (i, e, g) :: findIterAux cs pat fuel (if i < e then e else i + 1)
        | none => findIterAux cs pat fuel (i + 1)

def findIter (cs : List Char) (pat : List RTok) : List (Nat × Nat × Option (Nat × Nat)) :=
  findIterAux cs pat (cs.length + 1) 0

/-- A case-insensitive literal character (the embedded literals are written
in lowercase; `re.IGNORECASE` is in force for every pattern). -/
def litTok (c : Char) : RTok := RTok.rep 1 (some 1) false (fun x => x.toLower == c)

def litToks (s : String) : List RTok := s.toList.map litTok

/-- Python `\s` over ASCII — same characters as `str.strip` whitespace. -/
def wsCls (c : Char) : Bool := pyWs c

/-- The class `[^\s'"]`. -/
def notSpaceQuote (c : Char) : Bool := !pyWs c && c != '\'' && c != '"'

/-- The class `['"]`. -/
def quoteCls (c : Char) : Bool := c == '\'' || c == '"'

/-- The class `[:=]`. -/
def colonEq (c : Char) : Bool := c == ':' || c == '='

/-- The class `[A-Za-z0-9._%+-]` (e-mail local part). -/
def emailLocalCls (c : Char) : Bool :=
  ('A' ≤ c && c ≤ 'Z') || ('a' ≤ c && c ≤ 'z') || ('0' ≤ c && c ≤ '9') ||
  c == '.' || c == '_' || c == '%' || c == '+' || c == '-'

/-- The class `[A-Za-z0-9.-]` (e-mail domain). -/
def emailDomainCls (c : Char) : Bool :=
  ('A' ≤ c && c ≤ 'Z') || ('a' ≤ c && c ≤ 'z') || ('0' ≤ c && c ≤ '9') ||
  c == '.' || c == '-'

/-- The class `[A-Z|a-z]` (e-mail top-level domain; the source class
literally contains the bar character). -/
def emailTldCls (c : Char) : Bool :=
  ('A' ≤ c && c ≤ 'Z') || c == '|' || ('a' ≤ c && c ≤ 'z')

/-- `(?i)password\s*[:=]\s*['"]?([^\s'"]+)['"]?` (line 35). -/
def passwordPattern : List RTok :=
  litToks "password" ++
  [RTok.rep 0 none false wsCls, RTok.rep 1 (some 1) false colonEq,
   RTok.rep 0 none false wsCls, RTok.rep 0 (some 1) false quoteCls,
   RTok.rep 1 none true notSpaceQuote, RTok.rep 0 (some 1) false quoteCls]

/-- `(?i)pwd\s*[:=]\s*['"]?([^\s'"]+)['"]?` (line 36). -/
def pwdPattern : List RTok :=
  litToks "pwd" ++
  [RTok.rep 0 none false wsCls, RTok.rep 1 (some 1) false colonEq,
   RTok.rep 0 none false wsCls, RTok.rep 0 (some 1) false quoteCls,
   RTok.rep 1 none true notSpaceQuote, RTok.rep 0 (some 1) false quoteCls]

/-- `(?i)pass\s*[:=]\s*['"]?([^\s'"]+)['"]?` (line 37). -/
def passPattern : List RTok :=
  litToks "pass" ++
  [RTok.rep 0 none false wsCls, RTok.rep 1 (some 1) false colonEq,
   RTok.rep 0 none false wsCls, RTok.rep 0 (some 1) false quoteCls,
   RTok.rep 1 none true notSpaceQuote, RTok.rep 0 (some 1) false quoteCls]

/-- `\b[A-Za-z0-9._%+-]+@[A-Za-z0-9.-]+\.[A-Z|a-z]{2,}\b` (line 54). -/
def emailPattern : List RTok :=
  [RTok.wb, RTok.rep 1 none false emailLocalCls, litTok '@',
   RTok.rep 1 none false emailDomainCls, litTok '.',
   RTok.rep 2 none false emailTldCls, RTok.wb]

/-- The pattern table `PIIProtectionService._patterns` (lines 33-63).
Only the password and email categories — the only ones any claim
exercises — are embedded; the remaining categories are mapped to no
patterns and no theorem below consults them. -/
def patternsFor : PIICategory → List (List RTok)
  | PIICategory.password => [passwordPattern, pwdPattern, passPattern]
  | PIICategory.email => [emailPattern]
  | _ => []

/-- One detection built from a finditer match (lines 291-303): group 1 span
when the pattern captures, the whole match otherwise; the stored text is
the corresponding slice; regex confidence 0.8, source "regex". -/
def detectionOfMatch (cat : PIICategory) (cs : List Char)
    (m : Nat × Nat × Option (Nat × Nat)) : Detection :=
  let s := match m.2.2 with
    | some g => g.1
    | none => m.1
  let e := match m.2.2 with
    | some g => g.2
    | none => m.2.1
  { category := cat, text := (cs.take e).drop s, start := s, stop := e,
    confidencePct := 80, source := "regex" }

/-- `PIIProtectionService._detect_with_regex` (lines 278-311): iterate the
requested categories and their patterns, appending one detection per match
and recording each category the first time it matches. -/
def detectWithRegex (cs : List Char) (cats : List PIICategory) :
    List Detection × List PIICategory :=
  cats.foldl (fun acc cat =>
    (patternsFor cat).foldl (fun acc2 pat =>
      (findIter cs pat).foldl (fun acc3 m =>
        (acc3.1 ++ [detectionOfMatch cat cs m],
         if cat ∈ acc3.2 then acc3.2 else acc3.2 ++ [cat])) acc2) acc) ([], [])

def spanOf (d : Detection) : Nat × Nat := (d.start, d.stop)

/-- The merge of `detect_pii` (lines 137-144): seed the seen-position set
with the spans of the detections already present (the LangExtract ones),
then keep each regex detection whose exact span is unseen, adding its span
to the set. -/
def mergeDetections (llm regex : List Detection) : List Detection :=
  (regex.foldl (fun acc d =>
      if spanOf d ∈ acc.2 then acc
      else (acc.1 ++ [d], acc.2 ++ [spanOf d]))
    (llm, llm.map spanOf)).1

/-- The `PIIDetectionResult` pydantic model (src/api_schemas.py lines
183-188).  `categories_found` is built through a Python set in the source,
hence unordered there; it is modelled as an ordered union and no theorem
depends on its order. -/
structure PIIOutcome where
  hasPii : Bool
  categoriesFound : List PIICategory
  detections : List Detection
  redactedContent : Option (List Char)
deriving DecidableEq, Repr

/-- `PIIProtectionService.detect_pii` (lines 97-151) with the LangExtract
stage abstracted into the `llmDetections`/`llmCategories` inputs (empty
when the extractor is not configured, lines 124-132). -/
def detectPii (detectionEnabled : Bool) (llmDetections : List Detection)
    (llmCategories : List PIICategory) (cs : List Char)
    (cats : List PIICategory) : PIIOutcome :=
  if !detectionEnabled then
    { hasPii := false, categoriesFound := [], detections := [], redactedContent := none }
  else
    let r := detectWithRegex cs cats
    let merged := mergeDetections llmDetections r.1
    { hasPii := decide (0 < merged.length),
      categoriesFound := llmCategories ++ r.2.filter (fun c => !(llmCategories.contains c)),
      detections := merged,
      redactedContent := none }

/-- `_redaction_strings` (lines 66-74). -/
def redactionString : PIICategory → List Char
  | PIICategory.password => "[REDACTED_PASSWORD]".toList
  | PIICategory.apiKey => "[REDACTED_API_KEY]".toList
  | PIICategory.creditCard => "[REDACTED_CREDIT_CARD]".toList
  | PIICategory.ssn => "[REDACTED_SSN]".toList
  | PIICategory.email => "[REDACTED_EMAIL]".toList
  | PIICategory.phone => "[REDACTED_PHONE]".toList
  | PIICategory.address => "[REDACTED_ADDRESS]".toList

/-- `PIIProtectionService.redact_pii` (lines 153-192): detect, then replace
spans sorted by start descending, each replacement splicing the
placeholder over `content[start:end]`.  Python `sorted(..., reverse=True)`
is a stable descending sort; it is modelled by the (equally stable)
insertion sort on the relation `d2.start ≤ d1.start`. -/
def redactPii (detectionEnabled : Bool) (llmDetections : List Detection)
    (llmCategories : List PIICategory) (cs : List Char) (cats : List PIICategory) :
    List Char × PIIOutcome :=
  let res := detectPii detectionEnabled llmDetections llmCategories cs cats
  if !res.hasPii then (cs, { res with redactedContent := some cs })
  else
    let sorted := res.detections.insertionSort (fun d1 d2 => d2.start ≤ d1.start)
    let red := sorted.foldl (fun acc d =>
      acc.take d.start ++ redactionString d.category ++ acc.drop d.stop) cs
    (red, { res with redactedContent := some red })

/-- The example input of the spec scenario. -/
def c2Text : List Char :=
  "My password is secret123 and my email is john@example.com".toList

/-- C2, counterexample: with the LLM extractor not configured, the code
produces no password detection on the scenario text (every password regex
requires a colon or equals sign after the keyword, and the text has
neither), so the redacted output differs from the claimed one. -/
theorem C2_counterexample :
    (redactPii true [] [] c2Text [PIICategory.password, PIICategory.email]).1 ≠
      "My password is [REDACTED_PASSWORD] and my email is [REDACTED_EMAIL]".toList ∧
    ∀ d ∈ (detectPii true [] [] c2Text [PIICategory.password, PIICategory.email]).detections,
      d.category ≠ PIICategory.password := by
  constructor
  · decide
  · decide

/-- C2, amended: on the scenario text with categories {password, email}
and the LLM extractor not configured, the only detection is the email span
(41, 57) and the redaction replaces just it: the password value
`secret123` survives because the pattern detector only recognizes
`password`/`pwd`/`pass` followed by `:` or `=`. -/
theorem C2_amended_regex_only_email :
    (detectPii true [] [] c2Text [PIICategory.password, PIICategory.email]).detections =
      [{ category := PIICategory.email, text := "john@example.com".toList,
         start := 41, stop := 57, confidencePct := 80, source := "regex" }] ∧
    (redactPii true [] [] c2Text [PIICategory.password, PIICategory.email]).1 =
      "My password is secret123 and my email is [REDACTED_EMAIL]".toList := by
  constructor
  · decide
  · decide

/-- C4, counterexample: on "a@b.co" with the email category requested
twice, the pattern stage produces two detections with the identical span,
and the merge discards the second although there is no high-accuracy
detection at all — the dedup set also absorbs earlier pattern-based
detections, not only high-accuracy ones. -/
theorem C4_counterexample :
    (detectWithRegex "a@b.co".toList [PIICategory.email, PIICategory.email]).1.length = 2 ∧
    (detectPii true [] [] "a@b.co".toList
      [PIICategory.email, PIICategory.email]).detections.length = 1 := by
  constructor
  · decide
  · decide

/-- The kept pattern detections of the merge: scan the regex detections,
keeping each whose exact span has not been seen, and recording each kept
span. -/
def keepScan (seen : List (Nat × Nat)) : List Detection → List Detection
  | [] => []
  | d :: rest =>
      if spanOf d ∈ seen then keepScan seen rest
      else d :: keepScan (seen ++ [spanOf d]) rest

theorem mergeDetections_foldl (regex : List Detection) :
    ∀ (out : List Detection) (seen : List (Nat × Nat)),
      (regex.foldl (fun acc d =>
          if spanOf d ∈ acc.2 then acc
          else (acc.1 ++ [d], acc.2 ++ [spanOf d])) (out, seen)).1 =
        out ++ keepScan seen regex := by
  induction regex with
  | nil =>
      intro out seen
      simp [keepScan]
  | cons d rest ih =>
      intro out seen
      simp only [List.foldl_cons, keepScan]
      by_cases h : spanOf d ∈ seen
      · rw [if_pos h, if_pos h]
        exact ih out seen
      · rw [if_neg h, if_neg h]
        rw [ih (out ++ [d]) (seen ++ [spanOf d])]
        simp

theorem keepScan_sublist (l : List Detection) :
    ∀ seen, (keepScan seen l).Sublist l := by
  induction l with
  | nil =>
      intro seen
      simp [keepScan]
  | cons d rest ih =>
      intro seen
      by_cases h : spanOf d ∈ seen
      · rw [keepScan, if_pos h]
        exact (ih seen).cons d
      · rw [keepScan, if_neg h]
        exact (ih (seen ++ [spanOf d])).cons₂ d

theorem keepScan_spans (l : List Detection) :
    ∀ seen, ((keepScan seen l).map spanOf).Nodup ∧
      ∀ p ∈ (keepScan seen l).map spanOf, p ∉ seen := by
  induction l with
  | nil =>
      intro seen
      simp [keepScan]
  | cons d rest ih =>
      intro seen
      by_cases h : spanOf d ∈ seen
      · rw [keepScan, if_pos h]
        exact ih seen
      · rw [keepScan, if_neg h]
        obtain ⟨hnd, hfr⟩ := ih (seen ++ [spanOf d])
        refine ⟨?_, ?_⟩
        · simp only [List.map_cons, List.nodup_cons]
          exact ⟨fun hmem => (hfr _ hmem) (by simp), hnd⟩
        · intro p hp
          simp only [List.map_cons, List.mem_cons] at hp
          rcases hp with hp | hp
          · exact hp ▸ h
          · intro hpseen
            exact (hfr p hp) (List.mem_append_left _ hpseen)

theorem keepScan_coverage (l : List Detection) :
    ∀ seen, ∀ d ∈ l, spanOf d ∈ seen ∨ spanOf d ∈ (keepScan seen l).map spanOf := by
  induction l with
  | nil =>
      intro seen d hd
      simp at hd
  | cons d0 rest ih =>
      intro seen d hd
      rcases List.mem_cons.mp hd with h | h
      · subst h
        by_cases hs : spanOf d ∈ seen
        · exact Or.inl hs
        · rw [keepScan, if_neg hs]
          right
          simp
      · by_cases hs : spanOf d0 ∈ seen
        · rw [keepScan, if_pos hs]
          exact ih seen d h
        · rw [keepScan, if_neg hs]
          rcases ih (seen ++ [spanOf d0]) d h with h2 | h2
          · rcases List.mem_append.mp h2 with h3 | h3
            · exact Or.inl h3
            · right
              simp only [List.mem_singleton] at h3
              simp [h3]
          · right
            simp [h2]

/-- C4, amended: the merged result is the high-accuracy detections followed
by those pattern detections whose exact (start, end) span is occupied
neither by a high-accuracy detection nor by an earlier kept pattern
detection: kept spans are pairwise distinct and disjoint from the
high-accuracy spans, while every requested span survives in some detection
(so overlapping-but-not-identical spans are all kept; dedup remains exact
span equality, but against all previously merged detections, not only the
high-accuracy ones). -/
theorem C4_amended_merge_dedup (llm regex : List Detection) :
    ∃ kept : List Detection,
      mergeDetections llm regex = llm ++ kept ∧
      kept.Sublist regex ∧
      (kept.map spanOf).Nodup ∧
      (∀ p ∈ kept.map spanOf, p ∉ llm.map spanOf) ∧
      ∀ d ∈ regex, spanOf d ∈ llm.map spanOf ∨ spanOf d ∈ kept.map spanOf := by
  refine ⟨keepScan (llm.map spanOf) regex, ?_, keepScan_sublist regex _,
    (keepScan_spans regex _).1, (keepScan_spans regex _).2, keepScan_coverage regex _⟩
  unfold mergeDetections
  exact mergeDetections_foldl regex llm (llm.map spanOf)

/-- Witness for the amended C4 theorem at the concrete merge of the
counterexample input. -/
theorem C4_amended_witness :
    ∃ kept : List Detection,
      mergeDetections []
          (detectWithRegex "a@b.co".toList [PIICategory.email, PIICategory.email]).1 =
        [] ++ kept ∧
      kept.Sublist (detectWithRegex "a@b.co".toList [PIICategory.email, PIICategory.email]).1 ∧
      (kept.map spanOf).Nodup ∧
      (∀ p ∈ kept.map spanOf, p ∉ ([] : List Detection).map spanOf) ∧
      ∀ d ∈ (detectWithRegex "a@b.co".toList [PIICategory.email, PIICategory.email]).1,
        spanOf d ∈ ([] : List Detection).map spanOf ∨ spanOf d ∈ kept.map spanOf :=
  C4_amended_merge_dedup []
    (detectWithRegex "a@b.co".toList [PIICategory.email, PIICategory.email]).1
